import Mathlib

/-!
Verification of the semantic core of starlark-go-copybara against its
natural-language specification.  Each Go type and function relevant to the
claims is embedded as an executable Lean definition, translated from the Go
source; theorems about those definitions settle the claims.
-/

set_option maxHeartbeats 1000000
set_option maxRecDepth 4000

namespace Copybara

/-! ## Models of the Go standard library string functions used by the source

`String.splitOn`, `String.trim`, … from Lean core are implemented by
well-founded recursion on byte positions and do not reduce in the kernel, so
the Go `strings` helpers are modelled here by structural recursion on the
character list of the string. -/

namespace GoStrings

/-- One step of `strings.Split`: split a character list at every occurrence of
the (non-empty) separator.  The fuel only bounds the recursion depth (each
call consumes at least one character, so `length + 1` fuel always suffices);
structural recursion on the fuel keeps the function kernel-reducible. -/
def splitCharsF (sep : List Char) : Nat → List Char → List (List Char)
  | 0, _ => []
  | _ + 1, [] => [[]]
  | fuel + 1, c :: rest =>
    if sep ≠ [] ∧ sep.isPrefixOf (c :: rest) then
      [] :: splitCharsF sep fuel (rest.drop (sep.length - 1))
    else
      match splitCharsF sep fuel rest with
      | h :: t => (c :: h) :: t
      | [] => [[c]]

/-- Model of Go `strings.Split` (for a non-empty separator). -/
def goSplit (s sep : String) : List String :=
  (splitCharsF sep.data (s.data.length + 1) s.data).map String.mk

/-- Model of Go `strings.Contains`. -/
def goContains (s sub : String) : Bool :=
  go s.data
where
  go : List Char → Bool
    | [] => sub.data.isPrefixOf []
    | c :: rest => sub.data.isPrefixOf (c :: rest) || go rest

/-- Model of Go `strings.HasPrefix`. -/
def goStartsWith (s pre : String) : Bool :=
  pre.data.isPrefixOf s.data

/-- Model of Go `strings.HasSuffix`. -/
def goEndsWith (s suf : String) : Bool :=
  suf.data.isSuffixOf s.data

/-- Model of Go `strings.TrimPrefix`. -/
def goTrimPre (s pre : String) : String :=
  if goStartsWith s pre then String.mk (s.data.drop pre.data.length) else s

/-- Model of Go `strings.TrimSuffix`. -/
def goTrimSuf (s suf : String) : String :=
  if goEndsWith s suf then String.mk (s.data.take (s.data.length - suf.data.length)) else s

/-- Model of Go `strings.Join`. -/
def goJoin (sep : String) (parts : List String) : String :=
  String.intercalate sep parts

/-- Model of Go `strings.TrimSpace`. -/
def goTrimSpace (s : String) : String :=
  String.mk (((s.data.dropWhile Char.isWhitespace).reverse.dropWhile Char.isWhitespace).reverse)

/-- Model of Go `strings.ToUpper` (ASCII letters, as the source only compares
ASCII mode names). -/
def goToUpper (s : String) : String :=
  String.mk (s.data.map Char.toUpper)

/-- Drop the last character of a string (Go `s[:len(s)-1]` on ASCII text). -/
def dropLastChar (s : String) : String :=
  String.mk (s.data.take (s.data.length - 1))

end GoStrings

/-! ## Model of Go `filepath.Match` (slash-separated paths)

The pattern syntax is `*` (any run of non-separator characters), `?` (one
non-separator character), `[...]` character classes with ranges and `^`
negation, and backslash escapes.  A malformed pattern yields `false`: the
source discards `filepath.Match`'s error value. -/

namespace PathMatch


/-- Model of `getEsc` from Go `path/filepath/match.go`: read one
(possibly backslash-escaped) class character; the remaining chunk must be
non-empty (the closing `]` is still to come). -/
def getEsc (l : List Char) : Option (Char × List Char) :=
  match l with
  | [] => none
  | c :: r =>
    if c = '-' ∨ c = ']' then none
    else if c = '\\' then
      match r with
      | [] => none
      | c2 :: r2 => if r2.isEmpty then none else some (c2, r2)
    else if r.isEmpty then none else some (c, r)

theorem getEsc_length {l : List Char} {c : Char} {r : List Char}
    (h : getEsc l = some (c, r)) : r.length < l.length := by
  match l with
  | [] => simp [getEsc] at h
  | c1 :: r1 =>
    simp only [getEsc] at h
    split at h
    · exact absurd h (by simp)
    · split at h
      · match r1 with
        | [] => exact absurd h (by simp)
        | c2 :: r2 =>
          simp only at h
          split at h
          · exact absurd h (by simp)
          · obtain ⟨rfl, rfl⟩ := by simpa using h
            simp; omega
      · split at h
        · exact absurd h (by simp)
        · obtain ⟨rfl, rfl⟩ := by simpa using h
          simp

/-- Match the ranges of a character class against character `r`, as in the
range loop of `matchChunk`: accumulate whether some range contains `r`,
stop at a `]` once at least one range was read.  Each recursive call
consumes at least one character of the chunk (`getEsc_length`), so chunk
length + 1 fuel always suffices; the fuel keeps the recursion structural. -/
def classRangesF (r : Char) : Nat → Bool → Bool → List Char → Option (Bool × List Char)
  | 0, _, _, _ => none
  | _ + 1, _, _, [] => none
  | fuel + 1, mtch, sawRange, c :: rest =>
    if c = ']' ∧ sawRange then some (mtch, rest)
    else
      match getEsc (c :: rest) with
      | none => none
      | some (lo, l1) =>
        match l1 with
        | '-' :: l2 =>
          match getEsc l2 with
          | none => none
          | some (hi, l3) => classRangesF r fuel (mtch || (lo ≤ r && r ≤ hi)) true l3
        | _ => classRangesF r fuel (mtch || (lo ≤ r && r ≤ lo)) true l1

/-- Pattern-vs-name matcher of the `filepath.Match` model.  With
`star = false` it matches the pattern against the name: `*` matches a run of
non-separator characters, `?` one non-separator character, `[...]` a
character class, a backslash escapes the next pattern character, anything
else matches itself; an exhausted pattern requires an exhausted name.  With
`star = true` it performs the `*` search: succeed here or consume one
non-separator character and retry (in the source this is the skip loop for a
star chunk).  The fuel only bounds the recursion depth; `filepathMatch`
passes more fuel than the strictly shrinking pattern/name pair can use. -/
def matchPatF : Nat → Bool → List Char → List Char → Bool
  | 0, _, _, _ => false
  | fuel + 1, true, ps, name =>
    matchPatF fuel false ps name ||
      (match name with
       | [] => false
       | c :: cs => c ≠ '/' && matchPatF fuel true ps cs)
  | fuel + 1, false, pat, name =>
    match pat with
    | [] => name.isEmpty
    | '*' :: ps => matchPatF fuel true ps name
    | '?' :: ps =>
      match name with
      | [] => false
      | c :: cs => c ≠ '/' && matchPatF fuel false ps cs
    | '[' :: ps =>
      match name with
      | [] => false
      | c :: cs =>
        let p1 := match ps with
          | '^' :: t => (true, t)
          | _ => (false, ps)
        match classRangesF c (p1.2.length + 1) false false p1.2 with
        | none => false
        | some (m, rest) => (m != p1.1) && matchPatF fuel false rest cs
    | '\\' :: ps =>
      match ps, name with
      | p :: ps1, c :: cs => p == c && matchPatF fuel false ps1 cs
      | _, _ => false
    | p :: ps =>
      match name with
      | [] => false
      | c :: cs => p == c && matchPatF fuel false ps cs

/-- Model of Go `filepath.Match` on slash-separated paths.  The fuel passed
to `matchPatF` exceeds any reachable recursion depth. -/
def filepathMatch (pattern name : String) : Bool :=
  matchPatF (2 * (pattern.length + name.length) + 2) false pattern.data name.data


end PathMatch

/-! ## Pattern Engine: Glob (src/core/glob.go) -/

namespace Core

/-- The `Glob` struct of src/core/glob.go: a list of include patterns plus an
optional exclude `Glob`.  (The Go field `include` is a Lean keyword, so the
fields are named `includes`/`excludes`; the `frozen` flag only guards
starlark-level mutation and is omitted.) -/
inductive Glob where
  | mk (includes : List String) (excludes : Option Glob)

/-- The `include` field of a `Glob`. -/
def Glob.includes : Glob → List String
  | .mk i _ => i

/-- The `exclude` field of a `Glob` (may be nil). -/
def Glob.excludes : Glob → Option Glob
  | .mk _ e => e

/-- `AllFiles` from src/core/glob.go. -/
def AllFiles : Glob := .mk ["**"] none

/-- `matchGlobPattern` from src/core/glob.go, with the body of
`matchDoubleStarPattern` inlined as the double-star branch: a pattern
containing `"**"` is split at the token and matched as a pure-`**` pattern,
an anchored suffix pattern, an anchored literal-prefix pattern, or a
prefix/suffix pair tried against every segment suffix of the path.  The
source recurses through `matchGlobPattern` on a chunk of the split, and a
split chunk never contains `"**"` again, so the recursion depth is at most
two; the fuel passed by the wrapper below is therefore never exhausted. -/
def matchGlobPatternF : Nat → String → String → Bool
  | 0, _, _ => false
  | fuel + 1, pattern, path =>
    if GoStrings.goContains pattern "**" then
      let parts := GoStrings.goSplit pattern "**"
      if parts.length = 1 then PathMatch.filepathMatch pattern path
      else if parts.headD "" = "" then
        if parts.length = 1 ∨ (parts.length = 2 ∧ parts.getD 1 "" = "") then true
        else
          let suf0 := parts.getD 1 ""
          let suf := if GoStrings.goStartsWith suf0 "/" then String.mk (suf0.data.drop 1) else suf0
          let pathParts := GoStrings.goSplit path "/"
          (List.range pathParts.length).any fun i =>
            matchGlobPatternF fuel suf (GoStrings.goJoin "/" (pathParts.drop i))
      else if parts.getLastD "" = "" ∨ parts.getLastD "" = "/" then
        let pre := GoStrings.goTrimSuf (parts.headD "") "/"
        GoStrings.goStartsWith path (pre ++ "/") || path == pre
      else
        let pre := GoStrings.goTrimSuf (parts.headD "") "/"
        let suf := GoStrings.goTrimPre (parts.getD 1 "") "/"
        if ¬ GoStrings.goStartsWith path pre ∧ pre ≠ "" then false
        else
          let remaining := GoStrings.goTrimPre (GoStrings.goTrimPre path pre) "/"
          let remainingParts := GoStrings.goSplit remaining "/"
          (List.range remainingParts.length).any fun i =>
            matchGlobPatternF fuel suf (GoStrings.goJoin "/" (remainingParts.drop i))
    else PathMatch.filepathMatch pattern path

/-- `matchGlobPattern` from src/core/glob.go (wrapper supplying ample fuel). -/
def matchGlobPattern (pattern path : String) : Bool :=
  matchGlobPatternF (pattern.length + 1) pattern path

/-- The recursion of `globsEqual` from src/core/glob.go on non-nil globs:
equal include lists and recursively equal excludes. -/
def Glob.beq : Glob → Glob → Bool
  | .mk i1 e1, .mk i2 e2 =>
    i1 == i2 &&
      match e1, e2 with
      | none, none => true
      | some a, some b => Glob.beq a b
      | _, _ => false

/-- `globsEqual` from src/core/glob.go on the optional exclude pointers. -/
def globsEqual : Option Glob → Option Glob → Bool
  | none, none => true
  | some g1, some g2 => Glob.beq g1 g2
  | _, _ => false

/-- `Glob.Matches` from src/core/glob.go: the path must match some include
pattern and, when an exclude `Glob` is present, none of its include
patterns. -/
def Glob.Matches (g : Glob) (path : String) : Bool :=
  let matched := g.includes.any fun pat => matchGlobPattern pat path
  if !matched then false
  else
    match g.excludes with
    | none => true
    | some e => !(e.includes.any fun pat => matchGlobPattern pat path)

/-- `Union` from src/core/glob.go: concatenate the include lists; keep the
shared exclude when both sides have equal excludes, else drop the exclude. -/
def Union (g1 g2 : Glob) : Glob :=
  if globsEqual g1.excludes g2.excludes then .mk (g1.includes ++ g2.includes) g1.excludes
  else .mk (g1.includes ++ g2.includes) none

/-- `Difference` from src/core/glob.go: install `g2` as the exclude, or union
it into an existing exclude. -/
def Difference (g1 g2 : Glob) : Glob :=
  match g1.excludes with
  | none => .mk g1.includes (some g2)
  | some e => .mk g1.includes (some (Union e g2))

/-- Unconditional form of `Glob.Matches`: only the include patterns of the
exclude `Glob` are consulted. -/
theorem Matches_eq (g : Glob) (p : String) :
    Glob.Matches g p =
      ((g.includes.any fun pat => matchGlobPattern pat p) &&
        !(match g.excludes with
          | none => false
          | some e => e.includes.any fun pat => matchGlobPattern pat p)) := by
  unfold Glob.Matches
  cases hm : g.includes.any fun pat => matchGlobPattern pat p <;>
    cases g.excludes <;> simp

/-- The include list of a `Union` is the concatenation of the two include
lists, in both branches of `Union`. -/
theorem Union_includes (g1 g2 : Glob) :
    (Union g1 g2).includes = g1.includes ++ g2.includes := by
  unfold Union
  split <;> simp [Glob.includes]

/-- The exclude of a `Union`: the shared exclude when both sides agree,
else none. -/
theorem Union_excludes (g1 g2 : Glob) :
    (Union g1 g2).excludes =
      if globsEqual g1.excludes g2.excludes then g1.excludes else none := by
  unfold Union
  split <;> simp [Glob.excludes, *]

/-- The include list of a `Difference` is the left operand's include list. -/
theorem Difference_includes (g1 g2 : Glob) :
    (Difference g1 g2).includes = g1.includes := by
  unfold Difference
  cases he : g1.excludes <;> simp [Glob.includes]

/-- The exclude of a `Difference`: `g2`, or `g2` unioned into the existing
exclude. -/
theorem Difference_excludes (g1 g2 : Glob) :
    (Difference g1 g2).excludes =
      some (match g1.excludes with
            | none => g2
            | some e => Union e g2) := by
  unfold Difference
  cases he : g1.excludes <;> simp [Glob.excludes, he]

/-- `Glob.Matches` is true iff some include pattern matches and, for a
present exclude set, none of its include patterns match. -/
theorem Matches_true_iff (g : Glob) (p : String) :
    Glob.Matches g p = true ↔
      (g.includes.any fun pat => matchGlobPattern pat p) = true ∧
      ∀ e, g.excludes = some e →
        (e.includes.any fun pat => matchGlobPattern pat p) = false := by
  rw [Matches_eq]
  cases he : g.excludes <;> simp [he, Bool.and_eq_true]

/-! ## File Transform Engine: Move (src/core/move.go) -/

/-- The `Move` struct of src/core/move.go. -/
structure Move where
  before : String
  after : String
  paths : Option Glob
  overwrite : Bool

/-- The transformations a `Move.Reverse` call can produce: another `Move`,
or the `Noop` placeholder (carrying the original for diagnostics). -/
inductive CoreTransformation where
  | move (m : Move)
  | noop (original : Move)

/-- `Move.Reverse` from src/core/move.go: a `Noop` when `overwrite` is set,
else the swapped `Move` with the same paths. -/
def Move.Reverse (m : Move) : CoreTransformation :=
  if m.overwrite then .noop m
  else .move { before := m.after, after := m.before, paths := m.paths, overwrite := false }

end Core

/-! ## Author Policy Engine (src/authoring/module.go, src/types/author.go) -/

namespace Authoring

/-- The `Author` struct of the authoring package (the `package authoring`
section of src/wasm/main.go): a name and email pair. -/
structure Author where
  name : String
  email : String
deriving DecidableEq, Repr

/-- `Author.String()`: the "Name <email>" form. -/
def Author.toString (a : Author) : String :=
  a.name ++ " <" ++ a.email ++ ">"

/-- The single-quote character (spelled by code point). -/
def singleQuote : Char := Char.ofNat 39

/-- `doubleQuotedPattern` / `singleQuotedPattern` from the authoring package
(`^".*"$` and `^'.*'$`, matched without multiline or dot-all): the string
starts and ends with the quote character, has length at least two, and the
characters between the quotes contain no newline (the regex dot does not
match one). -/
def isQuotedBy (q : Char) (s : String) : Bool :=
  match s.data with
  | c :: rest =>
    c == q &&
      (match rest.getLast? with
       | some d => d == q && rest.dropLast.all fun ch => ch != '\n'
       | none => false)
  | [] => false

/-- `authorPattern` from the authoring package,
`^(?P<name>[^<]+)<(?P<email>[^>]*)>$`: the name is the non-empty run of
characters before the first `<`; the email is everything between that `<`
and the string's final character, which must be the first `>` after the
`<`. -/
def parseAuthorPattern (l : List Char) : Option (List Char × List Char) :=
  let name := l.takeWhile fun c => c ≠ '<'
  match l.dropWhile fun c => c ≠ '<' with
  | '<' :: rest =>
    if name.isEmpty then none
    else
      let email := rest.takeWhile fun c => c ≠ '>'
      match rest.dropWhile fun c => c ≠ '>' with
      | ['>'] => some (name, email)
      | _ => none
  | _ => none

/-- `ParseAuthor` from the authoring package (the `package authoring`
section of src/wasm/main.go): reject the empty string; strip one layer of
surrounding single or double quotes; match `authorPattern`; trim whitespace
from the captured name and email; the trimmed name must be non-empty, the
email may be empty. -/
def ParseAuthor (s : String) : Except String Author :=
  if s = "" then .error "invalid author format: empty author string"
  else
    let author :=
      if isQuotedBy '"' s || isQuotedBy singleQuote s then
        String.mk ((s.data.drop 1).take (s.data.length - 2))
      else s
    match parseAuthorPattern author.data with
    | none =>
      .error ("invalid author format: '" ++ s ++ "' must be in the format 'Name <email>'")
    | some (nameRaw, emailRaw) =>
      let name := GoStrings.goTrimSpace (String.mk nameRaw)
      let email := GoStrings.goTrimSpace (String.mk emailRaw)
      if name = "" then .error "invalid author format: author name cannot be empty"
      else .ok { name := name, email := email }

/-- `ParseAuthor` on test inputs of src/authoring/author_test.go: the
standard form, the quoted form, the empty-email form, and the
whitespace-only-name rejection. -/
theorem parseAuthor_examples :
    ParseAuthor "John Doe <john@example.com>" =
      .ok { name := "John Doe", email := "john@example.com" } ∧
    ParseAuthor "\"John Doe <john@example.com>\"" =
      .ok { name := "John Doe", email := "john@example.com" } ∧
    ParseAuthor "John Doe <>" = .ok { name := "John Doe", email := "" } ∧
    ParseAuthor "   <john@example.com>" =
      .error "invalid author format: author name cannot be empty" :=
  ⟨rfl, rfl, rfl, rfl⟩

/-- The `Allowed` policy struct of src/authoring/module.go.  The compiled
`/regex/` allow-list entries (`patterns`, `*regexp.Regexp` values in the
source) are modelled by their `MatchString` matcher functions. -/
structure Allowed where
  defaultAuthor : Author
  allowlist : List String
  patterns : List (String → Bool)

/-- `Allowed.isAllowed` from src/authoring/module.go: an exact allow-list
match on the email or on the full author string, or a compiled regex
matching the email or the full author string. -/
def Allowed.isAllowed (a : Allowed) (author : Author) : Bool :=
  let email := author.email
  let authorStr := author.toString
  if a.allowlist.any fun pat => pat == email || pat == authorStr then true
  else a.patterns.any fun re => re email || re authorStr

/-- `Allowed.ResolveAuthor` from src/authoring/module.go: the original when
present and allowed, else the configured default author. -/
def Allowed.ResolveAuthor (a : Allowed) (original : Option Author) : Author :=
  match original with
  | none => a.defaultAuthor
  | some o => if a.isAllowed o then o else a.defaultAuthor

end Authoring

/-! ## Transformation context (src/transform/context.go) -/

namespace Transform

/-- The `Change` struct of src/transform/context.go.  The Go label map
`map[string][]string` is modelled as an association list with distinct
keys. -/
structure Change where
  ref : String
  author : String
  message : String
  mappedAuthor : String
  isMerge : Bool
  labels : List (String × List String)
  files : List String
deriving DecidableEq, Repr

/-- The `Context` struct of src/transform/context.go.  The filesystem
capability `FS` is an external interface and is omitted; `Changes.Current`
is the `changes` list. -/
structure Context where
  workDir : String
  dryRun : Bool
  message : String
  author : String
  changes : List Change
  labels : List (String × List String)
deriving DecidableEq, Repr

/-- Lookup in a label map modelled as an association list. -/
def lookupLabel (labels : List (String × List String)) (name : String) :
    Option (List String) :=
  (labels.find? fun p => p.1 == name).map Prod.snd

/-- `[A-Za-z]`, the first character of a label name in `labelPattern`. -/
def isLabelStart (c : Char) : Bool :=
  ('A' ≤ c && c ≤ 'Z') || ('a' ≤ c && c ≤ 'z')

/-- `[A-Za-z0-9_-]`, a subsequent character of a label name. -/
def isLabelChar (c : Char) : Bool :=
  isLabelStart c || ('0' ≤ c && c ≤ '9') || c = '_' || c = '-'

/-- One line of `labelPattern` (`(?m)^([A-Za-z][A-Za-z0-9_-]*)[:=]\s*(.+)$`):
a label name, a `:` or `=` separator, then the rest of the line with leading
whitespace dropped, which must be non-empty.  (The corner where the regex's
`\s*` crosses the newline of a line whose value is all whitespace is not
modelled; no claim depends on it.) -/
def parseLabelLine (line : String) : Option (String × String) :=
  match line.data with
  | [] => none
  | c :: rest =>
    if isLabelStart c then
      let nm := c :: rest.takeWhile isLabelChar
      match rest.dropWhile isLabelChar with
      | sep :: valChars =>
        if sep = ':' ∨ sep = '=' then
          let v := valChars.dropWhile Char.isWhitespace
          if v.isEmpty then none else some (String.mk nm, String.mk v)
        else none
      | [] => none
    else none

/-- The message scan of `Context.GetLabel`: the first label line whose name
matches. -/
def findLabelValueInMessage (message name : String) : Option String :=
  go (GoStrings.goSplit message "\n")
where
  go : List String → Option String
    | [] => none
    | line :: rest =>
      match parseLabelLine line with
      | some (nm, v) => if nm = name then some v else go rest
      | none => go rest

/-- The change scan of `Context.GetLabel`: the first change whose label map
has a non-empty value list for the name. -/
def changesGetLabel (name : String) : List Change → String
  | [] => ""
  | c :: rest =>
    match lookupLabel c.labels name with
    | some (v :: _) => v
    | _ => changesGetLabel name rest

/-- `Context.GetLabel` from src/transform/context.go: pre-populated labels
first, then the message lines, then the changes; the empty string when the
label is absent. -/
def Context.GetLabel (ctx : Context) (name : String) : String :=
  match lookupLabel ctx.labels name with
  | some (v :: _) => v
  | _ =>
    match findLabelValueInMessage ctx.message name with
    | some v => GoStrings.goTrimSpace v
    | none => changesGetLabel name ctx.changes

/-- Split a message into segments, each a line together with its trailing
newline (the last segment has none unless the message ends in one): the
units the removal regex `(?m)^NAME[:=].*\n?` deletes. -/
def splitLinesKeep (s : String) : List String :=
  go (GoStrings.goSplit s "\n")
where
  go : List String → List String
    | [] => []
    | [last] => if last = "" then [] else [last]
    | l :: rest => (l ++ "\n") :: go rest

/-- Whether a segment is a label line for `name`: the literal name followed
by `:` or `=` (the rest of the line is unconstrained, as `.*` in the
removal regex). -/
def segIsLabelLine (name : String) (seg : String) : Bool :=
  let line := if GoStrings.goEndsWith seg "\n" then GoStrings.dropLastChar seg else seg
  GoStrings.goStartsWith line name &&
    (match line.data.drop name.data.length with
     | c :: _ => c = ':' ∨ c = '='
     | [] => false)

/-- `Context.RemoveLabel` from src/transform/context.go: drop the label from
the label map and delete every `NAME[:=]...` line (with its newline) from
the message. -/
def Context.RemoveLabel (ctx : Context) (name : String) : Context :=
  { ctx with
    labels := ctx.labels.filter fun p => ¬ p.1 = name,
    message := String.join ((splitLinesKeep ctx.message).filter
      fun seg => !segIsLabelLine name seg) }

/-- `Context.AddLabel` from src/transform/context.go: append to the label
map and append a `NAME<sep>VALUE` line to the message (inserting a newline
first when the message does not end in one). -/
def Context.AddLabel (ctx : Context) (name value separator : String) : Context :=
  let line := name ++ separator ++ value
  let message :=
    if ctx.message ≠ "" ∧ ¬ GoStrings.goEndsWith ctx.message "\n" then
      ctx.message ++ "\n"
    else ctx.message
  { ctx with
    labels :=
      match lookupLabel ctx.labels name with
      | some vs => ctx.labels.map fun p => if p.1 == name then (p.1, vs ++ [value]) else p
      | none => ctx.labels ++ [(name, [value])],
    message := message ++ line ++ "\n" }

end Transform

/-! ## Message Transform Engine (src/metadata/transforms.go) -/

namespace Metadata

/-- The `RestoreAuthor` struct of src/metadata/transforms.go. -/
structure RestoreAuthor where
  label : String
  separator : String
  searchAllChanges : Bool
deriving DecidableEq, Repr

/-- The change-scanning loop of `RestoreAuthor.Apply`: the last value of the
label in each visited change overwrites the accumulator ("last value wins");
without `searchAllChanges` only the first change is visited. -/
def findInChanges (label : String) (searchAll : Bool) (acc : String) :
    List Transform.Change → String
  | [] => acc
  | c :: rest =>
    let acc2 :=
      match Transform.lookupLabel c.labels label with
      | some vs =>
        match vs.getLast? with
        | some v => v
        | none => acc
      | none => acc
    if searchAll then findInChanges label searchAll acc2 rest else acc2

/-- The author string `RestoreAuthor.Apply` finds: the change scan, falling
back to `Context.GetLabel` when the scan found nothing. -/
def RestoreAuthor.foundAuthorStr (r : RestoreAuthor) (ctx : Transform.Context) :
    String :=
  let authorStr := findInChanges r.label r.searchAllChanges "" ctx.changes
  if authorStr = "" then ctx.GetLabel r.label else authorStr

/-- `RestoreAuthor.Apply` from src/metadata/transforms.go: when a label value
is found and parses as an author, overwrite the context author and strip the
label; a parse failure is silently ignored; no value found leaves the
context unchanged; no error is ever returned. -/
def RestoreAuthor.Apply (r : RestoreAuthor) (ctx : Transform.Context) :
    Except String Transform.Context :=
  let authorStr := r.foundAuthorStr ctx
  if authorStr ≠ "" then
    match Authoring.ParseAuthor authorStr with
    | .ok author =>
      .ok (Transform.Context.RemoveLabel { ctx with author := author.toString } r.label)
    | .error _ => .ok ctx
  else .ok ctx

/-- A compiled Go regex, modelled by the two methods the source calls:
`MatchString` (does the regex match anywhere in the string) and
`ReplaceAllString` (replace every match, second argument the replacement). -/
structure GoRegex where
  MatchString : String → Bool
  ReplaceAllString : String → String → String

/-- The `Scrubber` struct of src/metadata/transforms.go. -/
structure Scrubber where
  regexes : List GoRegex
  replacement : String
  msgIfNoMatch : String
  failIfNoMatch : Bool

/-- One iteration of the `Scrubber.Apply` regex loop: apply the regex to the
accumulated message and record whether the text changed. -/
def scrubStep (repl : String) (acc : String × Bool) (re : GoRegex) : String × Bool :=
  let newMessage := re.ReplaceAllString acc.1 repl
  if newMessage ≠ acc.1 then (newMessage, true) else acc

/-- `Scrubber.Apply` from src/metadata/transforms.go: run every regex in
order over the message; if any application changed the text, keep the
rewritten message; otherwise fail if `failIfNoMatch`, else substitute
`msgIfNoMatch` when non-empty, else leave the context unchanged. -/
def Scrubber.Apply (s : Scrubber) (ctx : Transform.Context) :
    Except String Transform.Context :=
  let res := s.regexes.foldl (scrubStep s.replacement) (ctx.message, false)
  if res.2 then .ok { ctx with message := res.1 }
  else if s.failIfNoMatch then
    .error ("scrubber regex didn't match for description: " ++ ctx.message)
  else if s.msgIfNoMatch ≠ "" then .ok { ctx with message := s.msgIfNoMatch }
  else .ok ctx

/-- The `MapAuthor` struct of src/metadata/transforms.go; the three Go maps
are modelled as association lists with distinct keys. -/
structure MapAuthor where
  authorToAuthor : List (String × String)
  mailToAuthor : List (String × Authoring.Author)
  nameToAuthor : List (String × Authoring.Author)
  reversible : Bool
  noopReverse : Bool
  failIfNotFound : Bool
  reverseFailIfNotFound : Bool
  mapAll : Bool
deriving DecidableEq, Repr

/-- The transformations `MapAuthor.Reverse` can produce: a reversed
`MapAuthor`, the `Noop` placeholder, or the always-failing `Error`
placeholder transform carrying its message. -/
inductive MetaTransformation where
  | mapAuthor (m : MapAuthor)
  | noop
  | errorT (msg : String)
deriving DecidableEq, Repr

/-- The reverse-map construction loop of `MapAuthor.Reverse`: invert each
`key -> value` pair, failing on a duplicate target value. -/
def buildReverse (acc : List (String × String)) :
    List (String × String) → Option (List (String × String))
  | [] => some acc
  | (k, v) :: rest =>
    if acc.any fun p => p.1 = v then none
    else buildReverse (acc ++ [(v, k)]) rest

/-- `MapAuthor.Reverse` from src/metadata/transforms.go: a no-op when
`noopReverse` is set; otherwise an error placeholder when `reversible` is
unset, when an email-only or name-only mapping exists, or when two keys map
to the same target author; else the inverted mapping with the
found/not-found flags swapped. -/
def MapAuthor.Reverse (m : MapAuthor) : MetaTransformation :=
  if m.noopReverse then .noop
  else if !m.reversible then
    .errorT "author mapping doesn't have reversible enabled"
  else if !m.mailToAuthor.isEmpty then
    .errorT "author mapping is not reversible because it contains mail -> author mappings"
  else if !m.nameToAuthor.isEmpty then
    .errorT "author mapping is not reversible because it contains name -> author mappings"
  else
    match buildReverse [] m.authorToAuthor with
    | none => .errorT "non-reversible author map: duplicate target author"
    | some rev =>
      .mapAuthor
        { authorToAuthor := rev
          mailToAuthor := []
          nameToAuthor := []
          reversible := m.reversible
          noopReverse := m.noopReverse
          failIfNotFound := m.reverseFailIfNotFound
          reverseFailIfNotFound := m.failIfNotFound
          mapAll := m.mapAll }

/-- Try to match a `${LABEL_NAME}` token (`\$\{[A-Za-z][A-Za-z0-9_-]*\}`)
at the head of the character list; on success return the label name and the
characters after the closing brace. -/
def matchToken : List Char → Option (String × List Char)
  | '$' :: '\x7b' :: c :: rest =>
    if Transform.isLabelStart c then
      match rest.dropWhile Transform.isLabelChar with
      | '\x7d' :: rest2 =>
        some (String.mk (c :: rest.takeWhile Transform.isLabelChar), rest2)
      | _ => none
    else none
  | _ => none

/-- The scan of `regexp.ReplaceAllStringFunc` over the template-token regex:
at each position, replace a token (keeping it verbatim when the lookup
yields the empty string, as `resolveTemplate` does) or emit the character
and move on.  The fuel only bounds the recursion depth; each step consumes
at least one character, so length + 1 fuel always suffices. -/
def resolveTemplateChars (look : String → String) : Nat → List Char → List Char
  | 0, l => l
  | _ + 1, [] => []
  | fuel + 1, c :: rest =>
    match matchToken (c :: rest) with
    | some (nm, rest2) =>
      let value := look nm
      (if value ≠ "" then value.data
       else '$' :: '\x7b' :: (nm.data ++ ['\x7d'])) ++
        resolveTemplateChars look fuel rest2
    | none => c :: resolveTemplateChars look fuel rest

/-- `SquashNotes.resolveTemplate` from src/metadata/transforms.go: substitute
each `${LABEL_NAME}` token with `ctx.GetLabel`'s value when non-empty, else
keep the token. -/
def resolveTemplate (template : String) (ctx : Transform.Context) : String :=
  String.mk (resolveTemplateChars (fun nm => ctx.GetLabel nm)
    (template.data.length + 1) template.data)

/-- `cutIfLong` from src/metadata/transforms.go: truncate a message to 57
characters plus an ellipsis when it is 60 or longer.  (The Go code measures
bytes; characters coincide on ASCII text.) -/
def cutIfLong (msg : String) : String :=
  if msg.length < 60 then msg else String.mk (msg.data.take 57) ++ "..."

/-- `Change.FirstLineMessage` from src/transform/context.go. -/
def firstLineMessage (c : Transform.Change) : String :=
  match GoStrings.goSplit c.message "\n" with
  | l :: _ => l
  | [] => c.message

/-- The `SquashNotes` struct of src/metadata/transforms.go (the Go field
`prefix` is a reserved word here, hence `prefixStr`). -/
structure SquashNotes where
  prefixStr : String
  max : Int
  compact : Bool
  showRef : Bool
  showAuthor : Bool
  showDescription : Bool
  oldestFirst : Bool
  useMerge : Bool
deriving DecidableEq, Repr

/-- The entry the `SquashNotes.Apply` loop writes for change `c` at loop
index `i` of `n` filtered changes: the compact one-line form or the verbose
`--`-separated form. -/
def entryString (s : SquashNotes) (n : Nat) (i : Nat) (c : Transform.Change) :
    String :=
  let author := if c.mappedAuthor == "" then c.author else c.mappedAuthor
  if s.compact then
    let parts :=
      (if s.showRef then [c.ref] else []) ++
      (if s.showDescription then [cutIfLong (firstLineMessage c)] else []) ++
      (if s.showAuthor then ["by " ++ author] else [])
    "  - " ++ GoStrings.goJoin " " parts ++ "\n"
  else
    let parts :=
      (if s.showRef then [c.ref]
       else ["Change " ++ toString (i + 1) ++ " of " ++ toString n]) ++
      (if s.showAuthor then ["by " ++ author] else [])
    "--\n" ++ GoStrings.goJoin " " parts ++
      (if s.showDescription then ":\n\n" ++ c.message else "") ++ "\n"

/-- The per-change loop of `SquashNotes.Apply`: emit entries while the
counter is below `max`. -/
def squashLoop (s : SquashNotes) (n : Nat) (i : Nat) (counter : Int) :
    List Transform.Change → String
  | [] => ""
  | c :: rest =>
    if counter ≥ s.max then ""
    else entryString s n i c ++ squashLoop s n (i + 1) (counter + 1) rest

/-- The change list `SquashNotes.Apply` iterates: reversed when
`oldestFirst`, then with merge changes filtered out unless `useMerge`. -/
def squashChanges (s : SquashNotes) (ctx : Transform.Context) :
    List Transform.Change :=
  let changes := if s.oldestFirst then ctx.changes.reverse else ctx.changes
  if !s.useMerge then changes.filter fun c => !c.isMerge else changes

/-- `SquashNotes.Apply` from src/metadata/transforms.go: the resolved prefix,
then (unless `max = 0`) one entry per filtered change up to `max`, then the
`"  (And N more changes)"` line when more changes than `max` remain. -/
def SquashNotes.Apply (s : SquashNotes) (ctx : Transform.Context) :
    Except String Transform.Context :=
  let pre := resolveTemplate s.prefixStr ctx
  if s.max = 0 then .ok { ctx with message := pre }
  else
    let changes := squashChanges s ctx
    let body := squashLoop s changes.length 0 0 changes
    let trailing :=
      if (changes.length : Int) > s.max then
        "  (And " ++ toString ((changes.length : Int) - s.max) ++ " more changes)\n"
      else ""
    .ok { ctx with message := pre ++ (body ++ trailing) }

end Metadata

/-! ## Workflow Composer (src/unnamed/part_015, package core) -/

namespace Core

/-- The `WorkflowMode` enum of the workflow source file. -/
inductive WorkflowMode where
  | squash
  | iterative
  | changeRequest
  | changeRequestFromSOT
deriving DecidableEq, Repr

/-- `WorkflowMode.String()` from the workflow source file. -/
def WorkflowMode.toStr : WorkflowMode → String
  | .squash => "SQUASH"
  | .iterative => "ITERATIVE"
  | .changeRequest => "CHANGE_REQUEST"
  | .changeRequestFromSOT => "CHANGE_REQUEST_FROM_SOT"

/-- `ParseWorkflowMode` from the workflow source file: upper-case the string
and match it against the four mode names; anything else is an error. -/
def ParseWorkflowMode (s : String) : Except String WorkflowMode :=
  match GoStrings.goToUpper s with
  | "SQUASH" => .ok .squash
  | "ITERATIVE" => .ok .iterative
  | "CHANGE_REQUEST" => .ok .changeRequest
  | "CHANGE_REQUEST_FROM_SOT" => .ok .changeRequestFromSOT
  | _ => .error ("unknown workflow mode: " ++ s)

/-- The `reversible_check` handling of `workflowFn`: an explicit boolean is
taken as given; the starlark `None` default resolves to true exactly for
`CHANGE_REQUEST` mode. -/
def resolveReversibleCheck (rc : Option Bool) (mode : WorkflowMode) : Bool :=
  match rc with
  | none => mode == WorkflowMode.changeRequest
  | some b => b

end Core

/-! ## wasm Author (src/wasm/main.go) -/

namespace Wasm

/-- The `Author` struct of src/wasm/main.go: a name and email pair. -/
structure Author where
  name : String
  email : String
deriving DecidableEq, Repr

/-- `Author.Equals` from src/wasm/main.go (the non-nil case): authors with the
same non-empty email are equal; if both emails are empty, compare by name;
if exactly one email is empty, the authors are unequal. -/
def Author.Equals (a other : Author) : Bool :=
  if a.email != "" && other.email != "" then a.email == other.email
  else if a.email == "" && other.email == "" then a.name == other.name
  else false

end Wasm

end Copybara

namespace Spec2Proof

open Copybara

/-- C5: author equality holds iff both emails are non-empty and equal, or both
emails are empty and the names are equal; with exactly one empty email the
authors are unequal regardless of names. -/
theorem c5_author_equals_iff :
    ∀ a b : Wasm.Author,
      Wasm.Author.Equals a b = true ↔
        ((a.email ≠ "" ∧ b.email ≠ "" ∧ a.email = b.email) ∨
         (a.email = "" ∧ b.email = "" ∧ a.name = b.name)) := by
  intro a b
  unfold Wasm.Author.Equals
  by_cases ha : a.email = "" <;> by_cases hb : b.email = "" <;>
    simp [ha, hb]


/-- C2 refuted as stated: with `a = glob(["foo"])` and
`b = glob(["foo"], exclude = ["foo"])`, the path `"foo"` is matched by `a`
and not by `b`, yet `Difference(Union(a, b), b)` does not match it, because
`Difference` installs `b`'s include patterns as excludes regardless of `b`'s
own exclude set. -/
theorem c2_counterexample :
    Core.Glob.Matches (Core.Glob.mk ["foo"] none) "foo" = true ∧
    Core.Glob.Matches (Core.Glob.mk ["foo"] (some (Core.Glob.mk ["foo"] none))) "foo" = false ∧
    Core.Glob.Matches
      (Core.Difference
        (Core.Union (Core.Glob.mk ["foo"] none)
          (Core.Glob.mk ["foo"] (some (Core.Glob.mk ["foo"] none))))
        (Core.Glob.mk ["foo"] (some (Core.Glob.mk ["foo"] none)))) "foo" = false := by
  refine ⟨by decide, by decide, by decide⟩

/-- C2 (amended): for all Pattern Sets `a` and `b` and every path `p` that
`a` matches and that matches none of `b`'s include patterns,
`Difference(Union(a, b), b)` matches `p`.  (As stated the claim fails when
`p` matches an include pattern of `b` but `b` itself does not match `p`
because of `b`'s own excludes; see the counterexample.) -/
theorem c2_difference_union (a b : Core.Glob) (p : String)
    (ha : Core.Glob.Matches a p = true)
    (hb : ∀ pat ∈ b.includes, Core.matchGlobPattern pat p = false) :
    Core.Glob.Matches (Core.Difference (Core.Union a b) b) p = true := by
  have hbany : (b.includes.any fun pat => Core.matchGlobPattern pat p) = false := by
    simp only [List.any_eq_false]
    intro pat hp
    simp [hb pat hp]
  rw [Core.Matches_true_iff] at ha
  obtain ⟨hainc, haexc⟩ := ha
  rw [Core.Matches_true_iff]
  constructor
  · rw [Core.Difference_includes, Core.Union_includes, List.any_append, hainc,
      Bool.true_or]
  · intro e2 he2
    rw [Core.Difference_excludes, Core.Union_excludes] at he2
    injection he2 with he2
    subst he2
    cases hg : Core.globsEqual a.excludes b.excludes with
    | false => simpa [hg] using hbany
    | true =>
      cases he : a.excludes with
      | none => simpa [hg, he] using hbany
      | some e =>
        simp [hg, he, Core.Union_includes, List.any_append, haexc e he, hbany]

/-- C2 amended, witness at a concrete input. -/
theorem c2_difference_union_witness :
    Core.Glob.Matches
      (Core.Difference (Core.Union (Core.Glob.mk ["foo"] none) (Core.Glob.mk ["bar"] none))
        (Core.Glob.mk ["bar"] none)) "foo" = true :=
  c2_difference_union (Core.Glob.mk ["foo"] none) (Core.Glob.mk ["bar"] none) "foo"
    (by decide) (by decide)

/-- C10: `Glob.Matches` consults only the include patterns of the exclude
set — the result is invariant under the exclude glob's own nested exclude —
and `Difference(a, b)` rejects every path matching one of `b`'s include
patterns, regardless of `b`'s excludes. -/
theorem c10_excludes_consult_only_includes :
    (∀ (inc einc : List String) (e1 e2 : Option Core.Glob) (p : String),
        Core.Glob.Matches (.mk inc (some (.mk einc e1))) p =
          Core.Glob.Matches (.mk inc (some (.mk einc e2))) p) ∧
    (∀ (a b : Core.Glob) (p : String),
        (b.includes.any fun pat => Core.matchGlobPattern pat p) = true →
        Core.Glob.Matches (Core.Difference a b) p = false) := by
  constructor
  · intro inc einc e1 e2 p
    rw [Core.Matches_eq, Core.Matches_eq]
    simp [Core.Glob.includes, Core.Glob.excludes]
  · intro a b p hb
    rw [Core.Matches_eq, Core.Difference_excludes]
    cases he : a.excludes with
    | none => simp [he, hb]
    | some e => simp [he, Core.Union_includes, List.any_append, hb]

/-- C7: reversing a `Move` with `overwrite = false` swaps `before`/`after`
and keeps `paths`, and reversing again restores the original `Move`. -/
theorem c7_move_reverse_involution (m : Core.Move) (h : m.overwrite = false) :
    Core.Move.Reverse m = .move ⟨m.after, m.before, m.paths, false⟩ ∧
    Core.Move.Reverse ⟨m.after, m.before, m.paths, false⟩ = .move m := by
  obtain ⟨b, a, pth, o⟩ := m
  simp only at h
  subst h
  constructor <;> simp [Core.Move.Reverse]

/-- C7, witness at a concrete `Move`. -/
theorem c7_move_reverse_involution_witness :
    Core.Move.Reverse ⟨"old/f.go", "new/f.go", none, false⟩ =
      .move ⟨"new/f.go", "old/f.go", none, false⟩ ∧
    Core.Move.Reverse ⟨"new/f.go", "old/f.go", none, false⟩ =
      .move ⟨"old/f.go", "new/f.go", none, false⟩ :=
  c7_move_reverse_involution ⟨"old/f.go", "new/f.go", none, false⟩ rfl

/-- Concatenation of a list of strings (kernel-reducible). -/
def concatStrings : List String → String
  | [] => ""
  | s :: rest => s ++ concatStrings rest

/-- The scrubber's fold with change-tracking equals the plain fold of all
replacements, with the flag recording whether some regex changed the
original message. -/
theorem scrub_fold (repl : String) (l : List Copybara.Metadata.GoRegex) :
    ∀ (m : String) (b : Bool),
      l.foldl (Copybara.Metadata.scrubStep repl) (m, b) =
        (l.foldl (fun mm re => re.ReplaceAllString mm repl) m,
         b || l.any fun re => re.ReplaceAllString m repl != m) := by
  induction l with
  | nil => intro m b; simp
  | cons re rest ih =>
    intro m b
    simp only [List.foldl_cons, List.any_cons]
    by_cases h : re.ReplaceAllString m repl = m
    · rw [show Copybara.Metadata.scrubStep repl (m, b) re = (m, b) from by
        simp [Copybara.Metadata.scrubStep, h]]
      rw [ih, h]
      simp [h]
    · rw [show Copybara.Metadata.scrubStep repl (m, b) re =
          (re.ReplaceAllString m repl, true) from by
        simp [Copybara.Metadata.scrubStep, h]]
      rw [ih]
      simp [h]

/-- The compiled Go regex for the literal pattern `"a"`, as a `GoRegex`:
`MatchString` is containment of `"a"`, `ReplaceAllString` replaces every
occurrence of `"a"` with the replacement string. -/
def regexLitA : Copybara.Metadata.GoRegex :=
  { MatchString := fun str => Copybara.GoStrings.goContains str "a"
    ReplaceAllString := fun str repl =>
      Copybara.GoStrings.goJoin repl (Copybara.GoStrings.goSplit str "a") }

/-- C1 refuted as stated: `Scrubber.Apply` records a match only when a
replacement changed the text.  With the single regex `"a"`, replacement
`"a"`, message `"a"` and `fail_if_no_match` set, the regex matches the
message but the rewrite leaves it unchanged, so `Apply` returns an error —
the claim says a matching regex always yields the rewritten message and no
error. -/
theorem c1_counterexample :
    regexLitA.MatchString "a" = true ∧
    Metadata.Scrubber.Apply
        { regexes := [regexLitA], replacement := "a", msgIfNoMatch := "",
          failIfNoMatch := true }
        { workDir := "", dryRun := false, message := "a", author := "",
          changes := [], labels := [] } =
      .error "scrubber regex didn't match for description: a" :=
  ⟨rfl, rfl⟩

/-- C1 (amended): `Scrubber.Apply` applies its ordered regexes with the
shared replacement; if any regex application changed the message, the fully
rewritten message is kept and no error is returned; otherwise it fails when
`fail_if_no_match` is set, else replaces the message with `msg_if_no_match`
when that is non-empty, else leaves the message unchanged.  (As stated, the
claim's trigger "any regex matched anywhere" is wrong: a regex that matches
but whose replacement reproduces the text takes the no-match path; see the
counterexample.) -/
theorem c1_scrubber_apply :
    ∀ (s : Metadata.Scrubber) (ctx : Transform.Context),
      Metadata.Scrubber.Apply s ctx =
        if s.regexes.any (fun re =>
            re.ReplaceAllString ctx.message s.replacement != ctx.message) then
          Except.ok { ctx with message :=
            (s.regexes.foldl (fun m re => re.ReplaceAllString m s.replacement)
              ctx.message) }
        else if s.failIfNoMatch then
          Except.error ("scrubber regex didn't match for description: " ++ ctx.message)
        else if s.msgIfNoMatch ≠ "" then Except.ok { ctx with message := s.msgIfNoMatch }
        else Except.ok ctx := by
  intro s ctx
  unfold Metadata.Scrubber.Apply
  rw [scrub_fold]
  cases h : s.regexes.any fun re =>
      re.ReplaceAllString ctx.message s.replacement != ctx.message <;>
    simp [h]

/-- `buildReverse` fails when the incoming values contain a duplicate, or
when an incoming value already appears among the accumulated reverse keys. -/
theorem buildReverse_dup_none :
    ∀ (l acc : List (String × String)),
      (¬ (l.map Prod.snd).Nodup ∨
        ∃ v ∈ l.map Prod.snd, (acc.any fun p => p.1 = v) = true) →
      Metadata.buildReverse acc l = none := by
  intro l
  induction l with
  | nil =>
    intro acc h
    rcases h with h | ⟨v, hv, _⟩
    · simp at h
    · simp at hv
  | cons kv rest ih =>
    intro acc h
    obtain ⟨k, v⟩ := kv
    unfold Metadata.buildReverse
    by_cases hacc : (acc.any fun p => p.1 = v) = true
    · simp [hacc]
    · rw [if_neg (by simpa using hacc)]
      apply ih
      rcases h with h | ⟨v2, hv2, hacc2⟩
      · by_cases hmem : v ∈ rest.map Prod.snd
        · right
          exact ⟨v, hmem, by simp [List.any_append]⟩
        · left
          intro hnd
          simp only [List.map_cons, List.nodup_cons] at h
          exact h ⟨hmem, hnd⟩
      · rcases List.mem_cons.mp hv2 with rfl | hv2r
        · exact absurd hacc2 hacc
        · right
          refine ⟨v2, hv2r, ?_⟩
          rw [List.any_append]
          simp [hacc2]

/-- C3 refuted as stated in its `reversible=false` clause: `Reverse` tests
`noop_reverse` first, so a `MapAuthor` with `reversible = false` and
`noop_reverse = true` reverses to the no-op placeholder, not to a failing
transform. -/
theorem c3_counterexample :
    (Metadata.MapAuthor.mk [] [] [] false true false false false).reversible = false ∧
    Metadata.MapAuthor.Reverse
        (Metadata.MapAuthor.mk [] [] [] false true false false false) =
      Metadata.MetaTransformation.noop ∧
    ∀ msg,
      Metadata.MapAuthor.Reverse
          (Metadata.MapAuthor.mk [] [] [] false true false false false) ≠
        Metadata.MetaTransformation.errorT msg :=
  ⟨rfl, rfl, fun _ h => Metadata.MetaTransformation.noConfusion h⟩

/-- C3 (amended): with `reversible = true` and `noop_reverse = false`,
`MapAuthor.Reverse` yields the always-failing placeholder transform when the
mapping has an email-only or name-only key or two keys map to the same
target author; `noop_reverse = true` makes the reverse a no-op regardless of
everything else (including `reversible = false`); and with
`reversible = false` and `noop_reverse = false` the reverse always fails. -/
theorem c3_map_author_reverse :
    (∀ m : Metadata.MapAuthor,
        m.reversible = true → m.noopReverse = false →
        (m.mailToAuthor ≠ [] ∨ m.nameToAuthor ≠ [] ∨
          ¬ (m.authorToAuthor.map Prod.snd).Nodup) →
        ∃ msg, Metadata.MapAuthor.Reverse m = Metadata.MetaTransformation.errorT msg) ∧
    (∀ m : Metadata.MapAuthor, m.noopReverse = true →
        Metadata.MapAuthor.Reverse m = Metadata.MetaTransformation.noop) ∧
    (∀ m : Metadata.MapAuthor, m.reversible = false → m.noopReverse = false →
        ∃ msg, Metadata.MapAuthor.Reverse m = Metadata.MetaTransformation.errorT msg) := by
  refine ⟨?_, ?_, ?_⟩
  · intro m hrev hnoop hcond
    by_cases hm : m.mailToAuthor = []
    · by_cases hn : m.nameToAuthor = []
      · have hdup : ¬ (m.authorToAuthor.map Prod.snd).Nodup := by
          rcases hcond with h | h | h
          · exact absurd hm h
          · exact absurd hn h
          · exact h
        have hb : Metadata.buildReverse [] m.authorToAuthor = none :=
          buildReverse_dup_none _ _ (Or.inl hdup)
        exact ⟨"non-reversible author map: duplicate target author",
          by simp [Metadata.MapAuthor.Reverse, hrev, hnoop, hm, hn, hb]⟩
      · exact ⟨"author mapping is not reversible because it contains name -> author mappings",
          by simp [Metadata.MapAuthor.Reverse, hrev, hnoop, hm, hn]⟩
    · exact ⟨"author mapping is not reversible because it contains mail -> author mappings",
        by simp [Metadata.MapAuthor.Reverse, hrev, hnoop, hm]⟩
  · intro m hnoop
    simp [Metadata.MapAuthor.Reverse, hnoop]
  · intro m hrev hnoop
    exact ⟨"author mapping doesn't have reversible enabled",
      by simp [Metadata.MapAuthor.Reverse, hrev, hnoop]⟩

/-- C6: the Allowed policy resolves a present original author to itself
exactly when `isAllowed` holds, and to the configured default otherwise and
when the original is absent; `isAllowed` holds iff some allow-list entry
equals the email or the full "Name <email>" string, or some compiled
`/regex/` entry matches the email or the full string. -/
theorem c6_allowed_resolve :
    (∀ a : Authoring.Allowed,
        Authoring.Allowed.ResolveAuthor a none = a.defaultAuthor) ∧
    (∀ (a : Authoring.Allowed) (orig : Authoring.Author),
        Authoring.Allowed.isAllowed a orig = true →
          Authoring.Allowed.ResolveAuthor a (some orig) = orig) ∧
    (∀ (a : Authoring.Allowed) (orig : Authoring.Author),
        Authoring.Allowed.isAllowed a orig = false →
          Authoring.Allowed.ResolveAuthor a (some orig) = a.defaultAuthor) ∧
    (∀ (a : Authoring.Allowed) (orig : Authoring.Author),
        Authoring.Allowed.isAllowed a orig = true ↔
          (∃ pat ∈ a.allowlist, pat = orig.email ∨ pat = orig.toString) ∨
          ∃ re ∈ a.patterns, re orig.email = true ∨ re orig.toString = true) := by
  refine ⟨fun a => rfl, ?_, ?_, ?_⟩
  · intro a orig h
    simp [Authoring.Allowed.ResolveAuthor, h]
  · intro a orig h
    simp [Authoring.Allowed.ResolveAuthor, h]
  · intro a orig
    unfold Authoring.Allowed.isAllowed
    by_cases h1 : (a.allowlist.any fun pat =>
        pat == orig.email || pat == orig.toString) = true
    · simp only [h1, if_true, true_iff]
      left
      obtain ⟨pat, hmem, hpat⟩ := List.any_eq_true.mp h1
      exact ⟨pat, hmem, by simpa using hpat⟩
    · rw [if_neg (by simpa using h1)]
      constructor
      · intro h2
        right
        obtain ⟨re, hmem, hre⟩ := List.any_eq_true.mp h2
        exact ⟨re, hmem, by simpa using hre⟩
      · intro h2
        rcases h2 with ⟨pat, hmem, hpat⟩ | ⟨re, hmem, hre⟩
        · exact absurd (List.any_eq_true.mpr ⟨pat, hmem, by simpa using hpat⟩) h1
        · exact List.any_eq_true.mpr ⟨re, hmem, by simpa using hre⟩

/-- C6, witness: the spec's example — with the allow-list regex
`/.*@myorg\.com$/` (compiled matcher: ends with "@myorg.com"), an author
`employee@myorg.com` resolves to itself and `external@other.com` to the
configured default. -/
theorem c6_allowed_resolve_witness :
    Authoring.Allowed.ResolveAuthor
        { defaultAuthor := { name := "Default", email := "default@myorg.com" },
          allowlist := ["/.*@myorg\\.com$/"],
          patterns := [fun s => GoStrings.goEndsWith s "@myorg.com"] }
        (some { name := "Employee", email := "employee@myorg.com" }) =
      { name := "Employee", email := "employee@myorg.com" } ∧
    Authoring.Allowed.ResolveAuthor
        { defaultAuthor := { name := "Default", email := "default@myorg.com" },
          allowlist := ["/.*@myorg\\.com$/"],
          patterns := [fun s => GoStrings.goEndsWith s "@myorg.com"] }
        (some { name := "External", email := "external@other.com" }) =
      { name := "Default", email := "default@myorg.com" } := by
  constructor
  · exact c6_allowed_resolve.2.1 _ _ (by decide)
  · exact rfl

/-- C8: `RestoreAuthor.Apply` never returns an error; when the found label
value is empty the context is unchanged; when it fails to parse as an author
the context is likewise unchanged; and only on a successful parse is the
context author overwritten and the label stripped. -/
theorem c8_restore_author :
    ∀ (r : Metadata.RestoreAuthor) (ctx : Transform.Context),
      (∃ ctx2, Metadata.RestoreAuthor.Apply r ctx = .ok ctx2) ∧
      (Metadata.RestoreAuthor.foundAuthorStr r ctx = "" →
        Metadata.RestoreAuthor.Apply r ctx = .ok ctx) ∧
      (∀ e, Metadata.RestoreAuthor.foundAuthorStr r ctx ≠ "" →
        Authoring.ParseAuthor (Metadata.RestoreAuthor.foundAuthorStr r ctx) = .error e →
        Metadata.RestoreAuthor.Apply r ctx = .ok ctx) ∧
      (∀ a, Metadata.RestoreAuthor.foundAuthorStr r ctx ≠ "" →
        Authoring.ParseAuthor (Metadata.RestoreAuthor.foundAuthorStr r ctx) = .ok a →
        Metadata.RestoreAuthor.Apply r ctx =
          .ok (Transform.Context.RemoveLabel { ctx with author := a.toString } r.label)) := by
  intro r ctx
  unfold Metadata.RestoreAuthor.Apply
  by_cases hs : Metadata.RestoreAuthor.foundAuthorStr r ctx = ""
  · refine ⟨⟨ctx, by simp [hs]⟩, fun _ => by simp [hs], ?_, ?_⟩
    · intro e hne _
      exact absurd hs hne
    · intro a hne _
      exact absurd hs hne
  · cases hp : Authoring.ParseAuthor (Metadata.RestoreAuthor.foundAuthorStr r ctx) with
    | ok a =>
      refine ⟨⟨Transform.Context.RemoveLabel { ctx with author := a.toString } r.label,
        by simp [hs, hp]⟩, fun h => absurd h hs, ?_, ?_⟩
      · intro e _ he
        exact Except.noConfusion he
      · intro a2 _ ha2
        obtain rfl : a = a2 := by simpa using ha2
        simp [hs, hp]
    | error e =>
      refine ⟨⟨ctx, by simp [hs, hp]⟩, fun h => absurd h hs, ?_, ?_⟩
      · intro e2 _ _
        simp [hs, hp]
      · intro a _ ha
        exact Except.noConfusion ha

/-- C9: workflow-mode parsing succeeds exactly when the upper-cased mode
string is one of the four mode names (hence case-insensitively), yielding
that mode, and fails on every other value; and an unset `reversible_check`
resolves to true exactly for `CHANGE_REQUEST`, while an explicit boolean is
taken as given. -/
theorem c9_workflow_mode :
    (∀ (s : String) (m : Core.WorkflowMode),
        Core.ParseWorkflowMode s = .ok m ↔
          GoStrings.goToUpper s = m.toStr) ∧
    (∀ s : String,
        (∃ e, Core.ParseWorkflowMode s = .error e) ↔
          GoStrings.goToUpper s ∉
            (["SQUASH", "ITERATIVE", "CHANGE_REQUEST",
              "CHANGE_REQUEST_FROM_SOT"] : List String)) ∧
    (∀ m : Core.WorkflowMode,
        Core.resolveReversibleCheck none m = true ↔ m = .changeRequest) ∧
    (∀ (m : Core.WorkflowMode) (b : Bool),
        Core.resolveReversibleCheck (some b) m = b) := by
  refine ⟨?_, ?_, ?_, fun m b => rfl⟩
  · intro s m
    unfold Core.ParseWorkflowMode
    constructor
    · intro h
      split at h <;> cases m <;> simp_all [Core.WorkflowMode.toStr]
    · intro h
      cases m <;> simp_all [Core.WorkflowMode.toStr]
  · intro s
    unfold Core.ParseWorkflowMode
    constructor
    · rintro ⟨e, h⟩
      split at h <;> simp_all
    · intro h
      simp only [List.mem_cons, List.not_mem_nil, or_false, not_or] at h
      obtain ⟨h1, h2, h3, h4⟩ := h
      refine ⟨"unknown workflow mode: " ++ s, ?_⟩
      split <;> simp_all
  · intro m
    cases m <;> simp [Core.resolveReversibleCheck]

/-- The `SquashNotes.Apply` loop written as take / map / concatenation: the
entries for the first `max - counter` changes (none when the counter already
reached `max`), indexed from `i`. -/
theorem squashLoop_eq (s : Metadata.SquashNotes) (n : Nat) :
    ∀ (l : List Transform.Change) (i : Nat) (counter : Int),
      Metadata.squashLoop s n i counter l =
        concatStrings (((l.take (s.max - counter).toNat).enumFrom i).map
          fun ic => Metadata.entryString s n ic.1 ic.2) := by
  intro l
  induction l with
  | nil =>
    intro i counter
    simp [Metadata.squashLoop, concatStrings]
  | cons c rest ih =>
    intro i counter
    unfold Metadata.squashLoop
    by_cases h : counter ≥ s.max
    · have h0 : (s.max - counter).toNat = 0 := by omega
      simp [h, h0, concatStrings]
    · have h2 : (s.max - counter).toNat = (s.max - (counter + 1)).toNat + 1 := by omega
      rw [if_neg h, h2, ih]
      simp [List.enumFrom_cons, concatStrings]

/-- The squash-notes instance of the spec's concrete example: all compact
defaults with `max = 2`. -/
def c4squash : Metadata.SquashNotes :=
  { prefixStr := "Copybara import of the project:\n\n", max := 2, compact := true,
    showRef := true, showAuthor := true, showDescription := true,
    oldestFirst := false, useMerge := true }

/-- A context carrying four non-merge changes. -/
def c4ctx : Transform.Context :=
  { workDir := "", dryRun := false, message := "", author := "",
    changes :=
      [{ ref := "r1", author := "A1 <a1@x>", message := "m1", mappedAuthor := "",
         isMerge := false, labels := [], files := [] },
       { ref := "r2", author := "A2 <a2@x>", message := "m2", mappedAuthor := "",
         isMerge := false, labels := [], files := [] },
       { ref := "r3", author := "A3 <a3@x>", message := "m3", mappedAuthor := "",
         isMerge := false, labels := [], files := [] },
       { ref := "r4", author := "A4 <a4@x>", message := "m4", mappedAuthor := "",
         isMerge := false, labels := [], files := [] }],
    labels := [] }

/-- C4: with `max = 0`, `SquashNotes.Apply` emits only the resolved prefix;
with `max > 0` it emits one entry per filtered (and optionally reversed)
change, capped at `max` (so at most `max` entries), followed by the
`"  (And N more changes)"` line with `N = count - max` exactly when the
filtered count exceeds `max`; and in particular `max = 2` over four changes
emits exactly the two first entries plus the trailing
`"  (And 2 more changes)"` line. -/
theorem c4_squash_notes :
    (∀ (s : Metadata.SquashNotes) (ctx : Transform.Context), s.max = 0 →
        Metadata.SquashNotes.Apply s ctx =
          .ok { ctx with message := Metadata.resolveTemplate s.prefixStr ctx }) ∧
    (∀ (s : Metadata.SquashNotes) (ctx : Transform.Context), 0 < s.max →
        Metadata.SquashNotes.Apply s ctx =
          .ok { ctx with message :=
            (Metadata.resolveTemplate s.prefixStr ctx ++
              (concatStrings
                ((((Metadata.squashChanges s ctx).take s.max.toNat).enumFrom 0).map
                  fun ic =>
                    Metadata.entryString s (Metadata.squashChanges s ctx).length
                      ic.1 ic.2) ++
               if ((Metadata.squashChanges s ctx).length : Int) > s.max then
                 "  (And " ++ toString (((Metadata.squashChanges s ctx).length : Int) - s.max) ++
                   " more changes)\n"
               else "")) }) ∧
    (Metadata.SquashNotes.Apply c4squash c4ctx =
      .ok { c4ctx with message :=
        "Copybara import of the project:\n\n  - r1 m1 by A1 <a1@x>\n  - r2 m2 by A2 <a2@x>\n  (And 2 more changes)\n" }) := by
  refine ⟨?_, ?_, ?_⟩
  · intro s ctx h
    unfold Metadata.SquashNotes.Apply
    simp [h]
  · intro s ctx h
    unfold Metadata.SquashNotes.Apply
    rw [if_neg (by omega)]
    simp only [squashLoop_eq, Int.sub_zero]
  · rfl

end Spec2Proof
